import Mathlib

/-!
Verification of `tfmigrate/state_xmv_action.go` (wildcard state-move expansion)
and `command/history_runner` (history-aware migration execution).

The wildcard source pattern is turned into a Go regular expression by
`makeSourceMatchPattern`: `regexp.QuoteMeta` escapes every character of the
source so that it matches literally, and every (escaped) `*` is then replaced
by the capturing group `([^\]\[\t\n\v\f\r ]*)` (constant `matchWildcardRegex`).
Consequently the compiled pattern is exactly a sequence of literal characters
and capturing wildcard groups, which we embed as a token list.  Matching uses
Go's leftmost-first semantics with greedy repetition, which for this pattern
shape is ordinary backtracking: a wildcard first tries the longest run of
non-excluded characters and backs off one character at a time.
-/

deriving instance DecidableEq for Except

namespace Tfmigrate

/-- A compiled pattern token: a literal character (everything `QuoteMeta`
escaped) or a capturing wildcard group `([^\]\[\t\n\v\f\r ]*)`. -/
inductive Tok where
  | lit (c : Char)
  | wild
deriving DecidableEq

/-- `const wildcardChar = "*"` -/
def wildcardChar : Char := '*'

/-- The characters excluded by the character class in
`matchWildcardRegex = "([^\\]\\[\t\n\v\f\r ]*)"`, i.e. the regex class
`[^\]\[\t\n\v\f\r ]` : `]`, `[`, tab, newline, vertical tab, form feed,
carriage return and space.  Note that `.` is NOT in the class. -/
def wildExcluded (c : Char) : Bool :=
  c = ']' || c = '[' || c = '\t' || c = '\n' || c = '\x0b' || c = '\x0c' ||
    c = '\r' || c = ' '

/-- `makeSourceMatchPattern` composed with `regexp.Compile`: after
`QuoteMeta` every character of the source is a literal, except that each `*`
has become the wildcard capturing group. -/
def compileSource (s : String) : List Tok :=
  s.toList.map (fun c => if c = wildcardChar then Tok.wild else Tok.lit c)

/-- Backtracking helper for a greedy wildcard group: try letting the group
consume the first `k` characters of `cs` (k = the current attempt, starting
from the longest permitted run) and continue with `f` on the remainder;
on failure retry with `k - 1`.  Returns the capture list and the total
number of characters consumed. -/
def tryLens (f : List Char → Option (List (List Char) × Nat)) (cs : List Char) :
    Nat → Option (List (List Char) × Nat)
  | 0 =>
    match f cs with
    | some (caps, n) => some (([] : List Char) :: caps, n)
    | none => none
  | k + 1 =>
    match f (cs.drop (k + 1)) with
    | some (caps, n) => some ((cs.take (k + 1)) :: caps, (k + 1) + n)
    | none => tryLens f cs k

/-- Match the compiled pattern against a prefix of `cs` (anchored at the
current position), Go leftmost-first semantics: literals must match exactly,
a wildcard group greedily consumes the longest run of non-excluded
characters and backtracks.  Returns the captures of the wildcard groups in
order and the length of the overall match. -/
def matchHere : List Tok → List Char → Option (List (List Char) × Nat)
  | [], _ => some ([], 0)
  | Tok.lit c :: rest, cs =>
    match cs with
    | [] => none
    | d :: cs' =>
      if d = c then
        match matchHere rest cs' with
        | some (caps, n) => some (caps, n + 1)
        | none => none
      else none
  | Tok.wild :: rest, cs =>
    tryLens (matchHere rest) cs ((cs.takeWhile (fun c => !wildExcluded c)).length)

/-- Find the leftmost match at or after the current position: `cs` is the
remaining suffix and `start` its absolute position.  Returns the absolute
start position, the matched text and the captures of the wildcard groups. -/
def searchFrom (toks : List Tok) : List Char → Nat → Option (Nat × List Char × List (List Char))
  | cs, start =>
    match matchHere toks cs with
    | some (caps, n) => some (start, cs.take n, caps)
    | none =>
      match cs with
      | [] => none
      | _ :: cs' => searchFrom toks cs' (start + 1)

/-- The loop of Go's `Regexp.allMatches` (used by `FindAllString(s, -1)`):
successive leftmost matches; after a non-empty match scanning resumes at its
end; an empty match immediately after a previous match is discarded and
scanning advances by one character.  `cs` is the suffix at absolute position
`pos`; `prevEnd` is the end position of the previous match.  The fuel is a
step bound: every iteration advances the scan position by at least one, so
`cs.length + 1` steps always suffice. -/
def allMatchesAux (toks : List Tok) :
    Nat → List Char → Nat → Option Nat → List (List Char × List (List Char))
  | 0, _, _, _ => []
  | fuel + 1, cs, pos, prevEnd =>
    match searchFrom toks cs pos with
    | none => []
    | some (mstart, text, caps) =>
      if mstart + text.length = pos then
        -- an empty match at the current scan position
        let res := if prevEnd = some mstart then [] else [(text, caps)]
        match cs with
        | [] => res
        | _ :: cs' => res ++ allMatchesAux toks fuel cs' (pos + 1) (some pos)
      else
        (text, caps) ::
          allMatchesAux toks fuel (cs.drop (mstart + text.length - pos))
            (mstart + text.length) (some (mstart + text.length))

/-- All matches of the compiled pattern in `cs`, each with its wildcard
captures, in scan order (`FindAllString` keeps only the texts). -/
def findAllWithCaps (toks : List Tok) (cs : List Char) :
    List (List Char × List (List Char)) :=
  allMatchesAux toks (cs.length + 1) cs 0 none

/-! Replacement-template expansion, after Go's `Regexp.expand` / `extract`.
A `$` reference is `$name` or `${name}` where `name` is a run of letters,
digits and underscores (modelled here for ASCII); a purely numeric name
without leading zeros selects a capture group by index, any other name an
(absent here) named group; `$$` is a literal `$`; a malformed reference
leaves the `$` as raw text. -/

/-- Character allowed in a `$` reference name (Go: `unicode.IsLetter`,
`unicode.IsDigit` or `_`; addresses and templates here are ASCII). -/
def isNameChar (c : Char) : Bool := c.isAlpha || c.isDigit || c = '_'

/-- Go's `extract`, applied to the text following a `$`: returns the
reference name and the rest of the template, or `none` when malformed
(empty name, or a brace form without the closing brace). -/
def extractRef (str : List Char) : Option (List Char × List Char) :=
  match str with
  | [] => none
  | c :: rest0 =>
    if c = '{' then
      let name := rest0.takeWhile isNameChar
      if name = [] then none
      else
        match rest0.drop name.length with
        | '}' :: rest2 => some (name, rest2)
        | _ => none
    else
      let name := str.takeWhile isNameChar
      if name = [] then none
      else some (name, str.drop name.length)

/-- The digit-accumulation loop of Go's `extract`: fails (Go: `num = -1`)
on a non-digit or once the accumulator reaches 10^8. -/
def parseNumGo : List Char → Nat → Option Nat
  | [], acc => some acc
  | c :: cs, acc =>
    if c < '0' || '9' < c || 100000000 ≤ acc then none
    else parseNumGo cs (acc * 10 + (c.toNat - '0'.toNat))

/-- The capture-group index denoted by a reference name, if numeric
(Go additionally rejects a leading zero on a multi-digit name). -/
def refNum (name : List Char) : Option Nat :=
  match parseNumGo name 0 with
  | none => none
  | some n =>
    match name with
    | '0' :: _ :: _ => none
    | _ => some n

/-- Go's `Regexp.expand` loop over the template.  `groups` lists the match
texts by group index (group 0 is the whole match, then the wildcard
captures).  A named (non-numeric) reference expands to nothing because the
compiled pattern has no named groups; so does an out-of-range index.
Every step consumes at least one template character, so fuel
`template.length + 1` always suffices. -/
def expandAux (groups : List (List Char)) : Nat → List Char → List Char
  | 0, rest => rest
  | _ + 1, [] => []
  | fuel + 1, c :: rest =>
    if c = '$' then
      match rest with
      | '$' :: rest2 => '$' :: expandAux groups fuel rest2
      | _ =>
        match extractRef rest with
        | none => '$' :: expandAux groups fuel rest
        | some (name, rest2) =>
          (match refNum name with
           | some n => groups.getD n []
           | none => []) ++ expandAux groups fuel rest2
    else c :: expandAux groups fuel rest

/-- Expand the replacement template for one match. -/
def expandTemplate (groups : List (List Char)) (template : List Char) : List Char :=
  expandAux groups (template.length + 1) template

/-- The loop of Go's `Regexp.replaceAll` (used by `ReplaceAllString`):
`searchPos` is the scan position, `lastEnd` the end of the last match
(`lastMatchEnd`).  Unmatched text is copied verbatim; each match is replaced
by the expanded template, except an empty match immediately after a previous
match.  The scan position advances by at least one character per iteration
(`width` is one character, or zero at the end of the text), so fuel
`src.length + 2` always suffices. -/
def replaceLoop (toks : List Tok) (template : List Char) (src : List Char) :
    Nat → Nat → Nat → List Char
  | 0, _, lastEnd => src.drop lastEnd
  | fuel + 1, searchPos, lastEnd =>
    if searchPos ≤ src.length then
      match searchFrom toks (src.drop searchPos) searchPos with
      | none => src.drop lastEnd
      | some (a0, text, caps) =>
        let a1 := a0 + text.length
        let pre := (src.drop lastEnd).take (a0 - lastEnd)
        let rep :=
          if lastEnd < a1 || a0 = 0 then expandTemplate (text :: caps) template
          else []
        let width := if searchPos < src.length then 1 else 0
        let searchPos' :=
          if a1 < searchPos + width then searchPos + width
          else if a1 < searchPos + 1 then searchPos + 1
          else a1
        pre ++ rep ++ replaceLoop toks template src fuel searchPos' a1
    else src.drop lastEnd

/-- Go's `ReplaceAllString`: replace every match of the compiled pattern in
`src` by the expanded replacement template. -/
def replaceAllString (toks : List Tok) (template : String) (src : String) : String :=
  String.mk (replaceLoop toks template.toList src.toList (src.toList.length + 2) 0 0)

/-! The `StateXMvAction` functions of `tfmigrate/state_xmv_action.go`. -/

/-- `StateXMvAction`: a source address possibly containing wildcards and a
destination address possibly containing placeholders. -/
structure StateXMvAction where
  source : String
  destination : String
deriving DecidableEq

/-- `StateMvAction`: one concrete move (fields `source`, `destination`). -/
structure StateMvAction where
  source : String
  destination : String
deriving DecidableEq

/-- `nrOfWildcards`: `strings.Count(a.source, wildcardChar)`. -/
def nrOfWildcards (a : StateXMvAction) : Nat :=
  a.source.toList.count wildcardChar

/-- `makeSrcRegex`: compile the derived pattern.  Because `QuoteMeta` escapes
every metacharacter of the source, the derived pattern is always valid, so
the error branch of `makeSrcRegex` (a `CompileError`) is preserved in the
type but never produced. -/
def makeSrcRegex (source : String) : Except String (List Tok) :=
  Except.ok (compileSource source)

/-- `strings.Join(stateList, "\n")`. -/
def joinNL : List String → List Char
  | [] => []
  | [s] => s.toList
  | s :: rest => s.toList ++ '\n' :: joinNL rest

/-- `getMatchingSourcesFromState`: all matches of the source pattern in the
newline-joined state listing (`FindAllString`); a nil result is normalised
to the empty list. -/
def getMatchingSourcesFromState (a : StateXMvAction) (stateList : List String) :
    Except String (List String) :=
  match makeSrcRegex a.source with
  | Except.error e => Except.error e
  | Except.ok toks =>
    Except.ok ((findAllWithCaps toks (joinNL stateList)).map (fun m => String.mk m.1))

/-- `getDestinationForStateSrc`: the destination for one matched source,
via `ReplaceAllString(stateSource, a.destination)`. -/
def getDestinationForStateSrc (a : StateXMvAction) (stateSource : String) :
    Except String String :=
  match makeSrcRegex a.source with
  | Except.error e => Except.error e
  | Except.ok toks => Except.ok (replaceAllString toks a.destination stateSource)

/-- The loop of `getStateMvActionsForStateList` over the matching sources:
build one `StateMvAction` per match, aborting on the first destination
error. -/
def buildMvActions (a : StateXMvAction) : List String → Except String (List StateMvAction)
  | [] => Except.ok []
  | s :: rest =>
    match getDestinationForStateSrc a s with
    | Except.error e => Except.error e
    | Except.ok d =>
      match buildMvActions a rest with
      | Except.error e => Except.error e
      | Except.ok l => Except.ok (⟨s, d⟩ :: l)

/-- `getStateMvActionsForStateList`: with no wildcard, exactly one move
`{source, destination}`; otherwise one move per match in the listing. -/
def getStateMvActionsForStateList (a : StateXMvAction) (stateList : List String) :
    Except String (List StateMvAction) :=
  if nrOfWildcards a = 0 then
    Except.ok [⟨a.source, a.destination⟩]
  else
    match getMatchingSourcesFromState a stateList with
    | Except.error e => Except.error e
    | Except.ok matchingSources => buildMvActions a matchingSources

/-! The effectful layer.  The terraform CLI is the external collaborator: we
model its observable behaviour as a world recording the listing result, a
failure schedule for moves, the number of `StateList` calls and the moves
attempted and applied (in order). -/

/-- The external terraform CLI collaborator, as observed by
`StateXMvAction.StateUpdate`: the outcome of `tf.StateList`, the outcome of
each `terraform state mv` (keyed by source and destination), and a log of
the calls made. -/
structure MvWorld where
  listResult : Except String (List String)
  moveFail : String → String → Option String
  listCalls : Nat
  attempted : List StateMvAction
  applied : List StateMvAction

/-- One `StateMvAction.StateUpdate`: the CLI attempts the move and either
fails with the scheduled error or records it as applied. -/
def stateMvStateUpdate (m : StateMvAction) (w : MvWorld) :
    Except String Unit × MvWorld :=
  let w1 := { w with attempted := w.attempted ++ [m] }
  match w.moveFail m.source m.destination with
  | some e => (Except.error e, w1)
  | none => (Except.ok (), { w1 with applied := w1.applied ++ [m] })

/-- The loop of `StateXMvAction.StateUpdate`: apply each generated move in
order, threading the state, aborting on the first failure. -/
def applyMvActions : List StateMvAction → MvWorld → Except String Unit × MvWorld
  | [], w => (Except.ok (), w)
  | m :: rest, w =>
    match stateMvStateUpdate m w with
    | (Except.error e, w1) => (Except.error e, w1)
    | (Except.ok _, w1) => applyMvActions rest w1

/-- `generateMvActions`: one `tf.StateList` call, then the pure expansion.
The listing call happens (and is counted) before its result is inspected. -/
def generateMvActions (a : StateXMvAction) (w : MvWorld) :
    Except String (List StateMvAction) × MvWorld :=
  let w1 := { w with listCalls := w.listCalls + 1 }
  match w.listResult with
  | Except.error e => (Except.error e, w1)
  | Except.ok stateList => (getStateMvActionsForStateList a stateList, w1)

/-- `StateXMvAction.StateUpdate`: generate the moves, then apply them
sequentially; any error is returned with no snapshot (`nil, err`). -/
def stateXMvStateUpdate (a : StateXMvAction) (w : MvWorld) :
    Except String Unit × MvWorld :=
  match generateMvActions a w with
  | (Except.error e, w1) => (Except.error e, w1)
  | (Except.ok acts, w1) => applyMvActions acts w1

/-! The history-aware runner (`command.HistoryRunner`).  The runner logic
(the already-applied gate, the unapplied loop, and the deferred
save-on-change finalizer with error merging) is translated from the source;
the collaborators it drives — the history controller and the per-file
runner — are not part of the source, so they are modelled from the spec. -/

/-- `MigrationConfig` as used by the runner: migration type and name. -/
structure MigConfig where
  typ : String
  name : String
deriving DecidableEq

/-- Modelled from the spec: a `MigrationRecord` of the history log —
"(filename, migration type, migration name, applied timestamp)"; the
timestamp is owned by the history package and irrelevant to the claims. -/
structure Record where
  filename : String
  typ : String
  name : String
deriving DecidableEq

/-- Modelled from the spec: `HistoryStore.AlreadyApplied(filename)` —
membership of the filename among the recorded migrations ("HistoryLog:
ordered set of MigrationRecords, keyed by filename for membership
tests"). -/
def alreadyApplied (h : List Record) (filename : String) : Bool :=
  h.any (fun r => r.filename == filename)

/-- Modelled from the spec: `HistoryStore.AddRecord` — append-only
("Created exactly once, on successful apply; never mutated;
append-only"). -/
def addRecord (h : List Record) (filename typ name : String) : List Record :=
  h ++ [⟨filename, typ, name⟩]

/-- The runner environment: the optional single filename (file mode when
set, directory mode otherwise) together with the external collaborators,
modelled from the spec: the ordered migration files, the outcome of running
one file's apply (`NewFileRunner` + `FileRunner.Apply`, yielding the file's
migration config on success), the outcome of one file's plan, and the
outcome of `HistoryStore.Save`. -/
structure Env where
  filename : Option String
  migrationFiles : List String
  fileApply : String → Except String MigConfig
  filePlan : String → Option String
  saveResult : Option String

/-- Modelled from the spec: `HistoryStore.UnappliedMigrations()` — "all
migration files − HistoryLog keys, in file-defined order". -/
def unappliedMigrations (env : Env) (h : List Record) : List String :=
  env.migrationFiles.filter (fun f => !alreadyApplied h f)

/-- The result of one runner invocation: the history log, the files whose
migration action was actually executed (in order), the number of
`HistoryStore.Save` calls, and the returned error. -/
structure RunResult where
  hist : List Record
  ran : List String
  saveCalls : Nat
  err : Option String
deriving DecidableEq

/-- `HistoryRunner.planFile`: fail on an already-applied file before
running anything, otherwise run the file's plan. -/
def planFile (env : Env) (h : List Record) (ran : List String) (filename : String) :
    List String × Option String :=
  if alreadyApplied h filename then
    (ran, some ("a migration has already been applied: " ++ filename))
  else
    (ran ++ [filename], env.filePlan filename)

/-- The loop of `HistoryRunner.planDir` over the unapplied files. -/
def planDirGo (env : Env) (h : List Record) :
    List String → List String → List String × Option String
  | [], ran => (ran, none)
  | f :: rest, ran =>
    match planFile env h ran f with
    | (ran', some e) => (ran', some e)
    | (ran', none) => planDirGo env h rest ran'

/-- `HistoryRunner.Plan`: file mode or directory mode; the history log is
never touched and `Save` is never called. -/
def historyPlan (env : Env) (h : List Record) : RunResult :=
  match env.filename with
  | some f => ⟨h, (planFile env h [] f).1, 0, (planFile env h [] f).2⟩
  | none =>
    ⟨h, (planDirGo env h (unappliedMigrations env h) []).1, 0,
      (planDirGo env h (unappliedMigrations env h) []).2⟩

/-- `HistoryRunner.applyFile`: fail on an already-applied file before
executing anything; otherwise run the file's apply and, on success, append
its record to the history. -/
def applyFile (env : Env) (h : List Record) (ran : List String) (filename : String) :
    List Record × List String × Option String :=
  if alreadyApplied h filename then
    (h, ran, some ("a migration has already been applied: " ++ filename))
  else
    match env.fileApply filename with
    | Except.error e => (h, ran ++ [filename], some e)
    | Except.ok mc => (addRecord h filename mc.typ mc.name, ran ++ [filename], none)

/-- The loop of `HistoryRunner.applyDir` over the unapplied files:
fail-fast, threading the history. -/
def applyDirGo (env : Env) :
    List String → List Record → List String → List Record × List String × Option String
  | [], h, ran => (h, ran, none)
  | f :: rest, h, ran =>
    match applyFile env h ran f with
    | (h', ran', some e) => (h', ran', some e)
    | (h', ran', none) => applyDirGo env rest h' ran'

/-- The body of `HistoryRunner.Apply` before its deferred finalizer:
file mode runs the single file, directory mode runs the unapplied batch. -/
def historyApplyCore (env : Env) (h : List Record) :
    List Record × List String × Option String :=
  match env.filename with
  | some f => applyFile env h [] f
  | none => applyDirGo env (unappliedMigrations env h) h []

/-- `HistoryRunner.Apply` with its deferred finalizer: if the history
length is unchanged, skip `Save`; otherwise call it, and on a save failure
either flag a successful run (`"apply succeed, but failed to save history:
%v"`) or merge the save error with the run's own error (`"failed to save
history: %v, failed to apply: %v"`). -/
def historyApply (env : Env) (h : List Record) : RunResult :=
  let core := historyApplyCore env h
  if core.1.length = h.length then ⟨core.1, core.2.1, 0, core.2.2⟩
  else
    match env.saveResult with
    | none => ⟨core.1, core.2.1, 1, core.2.2⟩
    | some serr =>
      match core.2.2 with
      | none =>
        ⟨core.1, core.2.1, 1,
          some ("apply succeed, but failed to save history: " ++ serr)⟩
      | some aerr =>
        ⟨core.1, core.2.1, 1,
          some ("failed to save history: " ++ serr ++ ", failed to apply: " ++ aerr)⟩

/-! Spec-side definitions, for comparison with the code.  The spec reads
"a pattern ... matching k ≥ 0 entries in L": an entry is matched when the
pattern matches the complete address, i.e. some assignment of permitted
segments to the wildcards covers the entire entry. -/

/-- Does `f` accept the remainder of `cs` after removing some prefix of at
most `k` characters (all candidate wildcard consumptions)? -/
def anyLen (f : List Char → Bool) (cs : List Char) : Nat → Bool
  | 0 => f cs
  | k + 1 => f (cs.drop (k + 1)) || anyLen f cs k

/-- Whether the compiled pattern matches the whole of `cs`: literals match
exactly and each wildcard consumes some run (possibly empty) of
non-excluded characters, together covering all of `cs`. -/
def fullMatch : List Tok → List Char → Bool
  | [], cs => cs.isEmpty
  | Tok.lit _ :: _, [] => false
  | Tok.lit c :: rest, d :: cs => d = c && fullMatch rest cs
  | Tok.wild :: rest, cs =>
    anyLen (fullMatch rest) cs ((cs.takeWhile (fun c => !wildExcluded c)).length)

/-- Statement of the spec's words: the number of entries of the listing
that the source pattern matches, as complete addresses. -/
def entriesMatched (a : StateXMvAction) (stateList : List String) : Nat :=
  (stateList.filter (fun s => fullMatch (compileSource a.source) s.toList)).length

end Tfmigrate

namespace Tfmigrate

/-- C1: the spec (and the code's own comment on `matchWildcardRegex`) says a
wildcard never matches `.`, whitespace, `[` or `]`.  The character class of
the compiled wildcard group omits `.`, so the wildcard of
`"module.*.foo"` captures `"a.b"` — which contains a `.` — from the address
`"module.a.b.foo"`, crossing a segment boundary.  The bracket half of the
claim does hold: `"module.app[*].aws_instance.foo"` has no match in
`"module.app[0].sub.aws_instance.foo"` because `]` is excluded. -/
theorem wildcard_capture_crosses_dot :
    findAllWithCaps (compileSource "module.*.foo") (joinNL ["module.a.b.foo"]) =
      [("module.a.b.foo".toList, ["a.b".toList])] ∧
    '.' ∈ "a.b".toList ∧
    findAllWithCaps (compileSource "module.app[*].aws_instance.foo")
      (joinNL ["module.app[0].sub.aws_instance.foo"]) = [] := by
  decide

/-- C3: a source with zero wildcard tokens expands to exactly one move
`{source, destination}`, unchanged, for every listing — the result does not
depend on the listing's contents. -/
theorem no_wildcard_exact_move (S D : String) (L : List String)
    (h : nrOfWildcards ⟨S, D⟩ = 0) :
    getStateMvActionsForStateList ⟨S, D⟩ L = Except.ok [⟨S, D⟩] := by
  simp [getStateMvActionsForStateList, h]

/-- Witness for C3 at a concrete wildcard-free source and a listing that
does not even mention it. -/
theorem no_wildcard_exact_move_witness :
    nrOfWildcards ⟨"module.app.aws_instance.foo", "module.core.aws_instance.foo"⟩ = 0 ∧
    getStateMvActionsForStateList
        ⟨"module.app.aws_instance.foo", "module.core.aws_instance.foo"⟩
        ["module.other.aws_instance.bar", "aws_s3_bucket.b"] =
      Except.ok [⟨"module.app.aws_instance.foo", "module.core.aws_instance.foo"⟩] :=
  ⟨by decide, no_wildcard_exact_move _ _ _ (by decide)⟩

/-- C9: `StateUpdate` asks the CLI for the state listing on every
invocation — the call is made and counted even when the source has no
wildcard — and a failing listing aborts the whole update with that error
before any move is attempted. -/
theorem listing_error_propagates (a : StateXMvAction) (w : MvWorld) (e : String)
    (h : w.listResult = Except.error e) :
    stateXMvStateUpdate a w =
      (Except.error e, { w with listCalls := w.listCalls + 1 }) := by
  simp [stateXMvStateUpdate, generateMvActions, h]

/-- Witness for C9: a wildcard-free source, a failing listing; the error is
returned, the listing call is counted, and no move was attempted. -/
theorem listing_error_propagates_witness :
    nrOfWildcards ⟨"a.b", "c.d"⟩ = 0 ∧
    stateXMvStateUpdate ⟨"a.b", "c.d"⟩
        ⟨Except.error "state list failed", fun _ _ => none, 0, [], []⟩ =
      (Except.error "state list failed",
        ⟨Except.error "state list failed", fun _ _ => none, 1, [], []⟩) :=
  ⟨by decide, listing_error_propagates _ _ _ rfl⟩

/-- C10: the compiled pattern is not anchored, so a match may be a proper
substring of a listing entry: `"module.*.r"` matches inside
`"xmodule.a.r"`, and the generated move's source `"module.a.r"` is not an
entry of the listing. -/
theorem match_not_anchored_substring :
    getStateMvActionsForStateList ⟨"module.*.r", "d"⟩ ["xmodule.a.r"] =
      Except.ok [⟨"module.a.r", "d"⟩] ∧
    "module.a.r" ∉ ["xmodule.a.r"] := by
  decide

end Tfmigrate

namespace Tfmigrate

/-- Helper: building the move list over the matching sources never fails —
`getDestinationForStateSrc` always succeeds because the derived pattern
always compiles — and yields one move per source, in order. -/
theorem buildMvActions_eq (a : StateXMvAction) (l : List String) :
    buildMvActions a l =
      Except.ok (l.map (fun s =>
        (⟨s, replaceAllString (compileSource a.source) a.destination s⟩ :
          StateMvAction))) := by
  induction l with
  | nil => rfl
  | cons s rest ih =>
    simp [buildMvActions, getDestinationForStateSrc, makeSrcRegex, ih]

/-- C2, counterexample to the claim as stated: for the wildcard source
`"m.*.r"` and the listing `["xm.a.r"]` the pattern matches zero entries of
the listing (no entry is matched as a complete address), yet expansion
returns one operation, not zero — the scan also finds matches strictly
inside entries. -/
theorem expansion_count_not_entry_count :
    1 ≤ nrOfWildcards ⟨"m.*.r", "d"⟩ ∧
    entriesMatched ⟨"m.*.r", "d"⟩ ["xm.a.r"] = 0 ∧
    getStateMvActionsForStateList ⟨"m.*.r", "d"⟩ ["xm.a.r"] =
      Except.ok [⟨"m.a.r", "d"⟩] := by
  decide

/-- C2, amended: for every listing and every source with at least one
wildcard, expansion returns exactly one `MoveOperation` per match of the
compiled pattern in the newline-joined listing (matches may sit strictly
inside an entry), in scan order, each destination obtained by expanding the
destination template over the match; in particular zero matches yield an
empty, error-free result. -/
theorem expansion_follows_scan (a : StateXMvAction) (L : List String)
    (h : 1 ≤ nrOfWildcards a) :
    getStateMvActionsForStateList a L =
      Except.ok ((findAllWithCaps (compileSource a.source) (joinNL L)).map
        (fun m => (⟨String.mk m.1,
          replaceAllString (compileSource a.source) a.destination (String.mk m.1)⟩ :
            StateMvAction))) ∧
    (findAllWithCaps (compileSource a.source) (joinNL L) = [] →
      getStateMvActionsForStateList a L = Except.ok []) := by
  have h0 : ¬ nrOfWildcards a = 0 := by omega
  constructor
  · simp [getStateMvActionsForStateList, h0, getMatchingSourcesFromState,
      makeSrcRegex, buildMvActions_eq, List.map_map, Function.comp]
  · intro hnil
    simp [getStateMvActionsForStateList, h0, getMatchingSourcesFromState,
      makeSrcRegex, hnil, buildMvActions]

/-- Witness for the amended C2 at the spec's end-to-end scenario: the
pattern `"module.a[*].r"` has two matches in the listing, yielding the two
expected operations in listing order. -/
theorem expansion_follows_scan_witness :
    1 ≤ nrOfWildcards ⟨"module.a[*].r", "module.new[$1].r"⟩ ∧
    getStateMvActionsForStateList ⟨"module.a[*].r", "module.new[$1].r"⟩
        ["module.a[0].r", "module.a[1].r", "module.b.r"] =
      Except.ok ((findAllWithCaps (compileSource "module.a[*].r")
          (joinNL ["module.a[0].r", "module.a[1].r", "module.b.r"])).map
        (fun m => (⟨String.mk m.1,
          replaceAllString (compileSource "module.a[*].r") "module.new[$1].r"
            (String.mk m.1)⟩ : StateMvAction))) ∧
    getStateMvActionsForStateList ⟨"module.a[*].r", "module.new[$1].r"⟩
        ["module.a[0].r", "module.a[1].r", "module.b.r"] =
      Except.ok [⟨"module.a[0].r", "module.new[0].r"⟩,
                 ⟨"module.a[1].r", "module.new[1].r"⟩] :=
  ⟨by decide, (expansion_follows_scan _ _ (by decide)).1, by decide⟩

end Tfmigrate

namespace Tfmigrate

/-- Helper: applying a move sequence whose prefix succeeds and whose next
move fails returns that move's error; the successful prefix stays applied
(no rollback), the failing move was attempted, and nothing after it was. -/
theorem applyMvActions_split (pre : List StateMvAction) :
    ∀ (w : MvWorld) (b : StateMvAction) (post : List StateMvAction) (e : String),
      (∀ m ∈ pre, w.moveFail m.source m.destination = none) →
      w.moveFail b.source b.destination = some e →
      applyMvActions (pre ++ b :: post) w =
        (Except.error e,
          { w with attempted := w.attempted ++ pre ++ [b],
                   applied := w.applied ++ pre }) := by
  induction pre with
  | nil =>
    intro w b post e _ hb
    simp [applyMvActions, stateMvStateUpdate, hb]
  | cons m pre ih =>
    intro w b post e hpre hb
    have hm : w.moveFail m.source m.destination = none := hpre m (by simp)
    have hrest : ∀ m' ∈ pre,
        w.moveFail m'.source m'.destination = none := by
      intro m' hm'; exact hpre m' (by simp [hm'])
    simp only [List.cons_append, applyMvActions, stateMvStateUpdate, hm,
      List.append_eq]
    rw [ih _ b post e (by simpa using hrest) (by simpa using hb)]
    simp

/-- C4: `StateUpdate` queries the listing exactly once per invocation (the
call count rises by one, never once per move), then applies the generated
moves sequentially through the evolving state; at the first failing move it
returns that move's error with no snapshot, the moves before it stay
applied (no rollback), and the moves after it are never attempted. -/
theorem stateUpdate_fail_fast (a : StateXMvAction) (w : MvWorld)
    (sl : List String) (pre post : List StateMvAction) (b : StateMvAction)
    (e : String)
    (hlist : w.listResult = Except.ok sl)
    (hacts : getStateMvActionsForStateList a sl = Except.ok (pre ++ b :: post))
    (hpre : ∀ m ∈ pre, w.moveFail m.source m.destination = none)
    (hb : w.moveFail b.source b.destination = some e) :
    stateXMvStateUpdate a w =
      (Except.error e,
        { w with listCalls := w.listCalls + 1,
                 attempted := w.attempted ++ pre ++ [b],
                 applied := w.applied ++ pre }) := by
  simp only [stateXMvStateUpdate, generateMvActions, hlist, hacts]
  rw [applyMvActions_split pre _ b post e (by simpa using hpre) (by simpa using hb)]

/-- Witness for C4: three generated moves, the second fails: one listing
call, the first move applied and kept, the third never attempted, the
second move's error returned with no snapshot. -/
theorem stateUpdate_fail_fast_witness :
    stateXMvStateUpdate ⟨"m.*", "n.$1"⟩
        ⟨Except.ok ["m.a", "m.b", "m.c"],
          fun s _ => if s = "m.b" then some "mv failed" else none, 0, [], []⟩ =
      (Except.error "mv failed",
        ⟨Except.ok ["m.a", "m.b", "m.c"],
          fun s _ => if s = "m.b" then some "mv failed" else none, 1,
          [⟨"m.a", "n.a"⟩, ⟨"m.b", "n.b"⟩], [⟨"m.a", "n.a"⟩]⟩) := by
  have h := stateUpdate_fail_fast ⟨"m.*", "n.$1"⟩
    ⟨Except.ok ["m.a", "m.b", "m.c"],
      fun s _ => if s = "m.b" then some "mv failed" else none, 0, [], []⟩
    ["m.a", "m.b", "m.c"]
    [⟨"m.a", "n.a"⟩] [⟨"m.c", "n.c"⟩] ⟨"m.b", "n.b"⟩ "mv failed"
    rfl (by decide) (by decide) (by decide)
  simpa using h

end Tfmigrate

namespace Tfmigrate

/-- C5: when the Apply finalizer persists the history and `Save` fails, the
run's original outcome survives: a successful run turns into the
"apply succeed, but failed to save history" error, and a failed run turns
into a composite error whose text contains both the save failure and the
original apply failure. -/
theorem save_failure_preserves_outcome (env : Env) (h : List Record)
    (serr : String)
    (hsave : env.saveResult = some serr)
    (hchanged : (historyApplyCore env h).1.length ≠ h.length) :
    ((historyApplyCore env h).2.2 = none →
      (historyApply env h).err =
        some ("apply succeed, but failed to save history: " ++ serr)) ∧
    (∀ aerr, (historyApplyCore env h).2.2 = some aerr →
      (historyApply env h).err =
        some ("failed to save history: " ++ serr ++ ", failed to apply: " ++ aerr) ∧
      ∃ s t u,
        "failed to save history: " ++ serr ++ ", failed to apply: " ++ aerr =
          s ++ serr ++ t ++ aerr ++ u) := by
  constructor
  · intro hnone
    simp [historyApply, hsave, hchanged, hnone]
  · intro aerr haerr
    refine ⟨by simp [historyApply, hsave, hchanged, haerr], "failed to save history: ", ", failed to apply: ", "", by simp⟩

/-- Witness for C5: directory mode, the first file applies and is recorded,
the second fails, and `Save` also fails: the returned error text carries
both messages. -/
theorem save_failure_preserves_outcome_witness :
    (historyApplyCore
        ⟨none, ["a", "b"],
          fun f => if f = "a" then Except.ok ⟨"mv", "ma"⟩ else Except.error "bfail",
          fun _ => none, some "disk full"⟩ []).2.2 = some "bfail" ∧
    (historyApply
        ⟨none, ["a", "b"],
          fun f => if f = "a" then Except.ok ⟨"mv", "ma"⟩ else Except.error "bfail",
          fun _ => none, some "disk full"⟩ []).err =
      some ("failed to save history: " ++ "disk full" ++ ", failed to apply: " ++ "bfail") :=
  ⟨by decide,
    (((save_failure_preserves_outcome
        ⟨none, ["a", "b"],
          fun f => if f = "a" then Except.ok ⟨"mv", "ma"⟩ else Except.error "bfail",
          fun _ => none, some "disk full"⟩ [] "disk full" rfl (by decide)).2
      "bfail" (by decide)).1)⟩

/-- C6: `Save` runs only when the run changed the history: a Plan run never
touches the history and never saves; an Apply run whose history length is
unchanged — in particular a directory-mode Apply with an empty unapplied
batch — never calls `Save` (and returns the run's own outcome untouched). -/
theorem save_skipped_when_unchanged (env : Env) (h : List Record) :
    (historyPlan env h).hist = h ∧ (historyPlan env h).saveCalls = 0 ∧
    ((historyApplyCore env h).1.length = h.length →
      (historyApply env h).saveCalls = 0 ∧
      (historyApply env h).err = (historyApplyCore env h).2.2) ∧
    (env.filename = none → unappliedMigrations env h = [] →
      (historyApply env h).saveCalls = 0 ∧ (historyApply env h).err = none) := by
  refine ⟨?_, ?_, ?_, ?_⟩
  · cases hf : env.filename <;> simp [historyPlan, hf]
  · cases hf : env.filename <;> simp [historyPlan, hf]
  · intro hlen
    constructor <;> simp [historyApply, hlen]
  · intro hf hemp
    have hcore : historyApplyCore env h = (h, [], none) := by
      simp [historyApplyCore, hf, hemp, applyDirGo]
    constructor <;> simp [historyApply, hcore]

/-- Witness for C6: a Plan run and a no-op directory Apply (every file
already applied) on the same history: nothing saved, nothing changed. -/
theorem save_skipped_when_unchanged_witness :
    (historyPlan
        ⟨none, ["a"], fun _ => Except.error "never run", fun _ => none, some "boom"⟩
        [⟨"a", "mv", "ma"⟩]).saveCalls = 0 ∧
    (historyApplyCore
        ⟨none, ["a"], fun _ => Except.error "never run", fun _ => none, some "boom"⟩
        [⟨"a", "mv", "ma"⟩]).1.length = [(⟨"a", "mv", "ma"⟩ : Record)].length ∧
    (historyApply
        ⟨none, ["a"], fun _ => Except.error "never run", fun _ => none, some "boom"⟩
        [⟨"a", "mv", "ma"⟩]).saveCalls = 0 :=
  ⟨(save_skipped_when_unchanged _ _).2.1, by decide,
    ((save_skipped_when_unchanged
        ⟨none, ["a"], fun _ => Except.error "never run", fun _ => none, some "boom"⟩
        [⟨"a", "mv", "ma"⟩]).2.2.1 (by decide)).1⟩

/-- C7: a single-file Apply or Plan of a filename already in the history
fails with the already-applied error before executing any migration action
(`ran = []`, for every possible file outcome), leaves the history log
untouched and never saves. -/
theorem already_applied_rejected (env : Env) (h : List Record) (f : String)
    (hf : env.filename = some f)
    (happ : alreadyApplied h f = true) :
    historyApply env h =
      ⟨h, [], 0, some ("a migration has already been applied: " ++ f)⟩ ∧
    historyPlan env h =
      ⟨h, [], 0, some ("a migration has already been applied: " ++ f)⟩ := by
  have hcore : historyApplyCore env h =
      (h, [], some ("a migration has already been applied: " ++ f)) := by
    simp [historyApplyCore, hf, applyFile, happ]
  constructor
  · simp [historyApply, hcore]
  · simp [historyPlan, hf, planFile, happ]

/-- Witness for C7: re-applying the recorded file `"m1"` fails with the
already-applied error, runs nothing, and the history log is unchanged —
even though the file runner would have succeeded. -/
theorem already_applied_rejected_witness :
    alreadyApplied [⟨"m1", "mv", "n1"⟩] "m1" = true ∧
    historyApply
        ⟨some "m1", ["m1"], fun _ => Except.ok ⟨"mv", "n1"⟩, fun _ => none, none⟩
        [⟨"m1", "mv", "n1"⟩] =
      ⟨[⟨"m1", "mv", "n1"⟩], [], 0,
        some ("a migration has already been applied: " ++ "m1")⟩ :=
  ⟨by decide,
    (already_applied_rejected
      ⟨some "m1", ["m1"], fun _ => Except.ok ⟨"mv", "n1"⟩, fun _ => none, none⟩
      [⟨"m1", "mv", "n1"⟩] "m1" rfl (by decide)).1⟩

end Tfmigrate

namespace Tfmigrate

/-- Helper: appending one record extends the membership test by one
filename. -/
theorem alreadyApplied_append (h : List Record) (r : Record) (g : String) :
    alreadyApplied (h ++ [r]) g = (alreadyApplied h g || r.filename == g) := by
  simp [alreadyApplied]

/-- Helper: the directory-apply loop on `pre ++ b :: post`, where every
file of `pre` is fresh and succeeds and `b` fails: the records of `pre` are
appended in order, `b`'s error is returned, and nothing in `post` is
attempted. -/
theorem applyDirGo_fail_fast (env : Env) (mcOf : String → MigConfig)
    (pre : List String) :
    ∀ (b : String) (post : List String) (e : String)
      (h : List Record) (ran : List String),
      (∀ f ∈ pre, alreadyApplied h f = false) →
      alreadyApplied h b = false →
      pre.Nodup → b ∉ pre →
      (∀ f ∈ pre, env.fileApply f = Except.ok (mcOf f)) →
      env.fileApply b = Except.error e →
      applyDirGo env (pre ++ b :: post) h ran =
        (h ++ pre.map (fun f => (⟨f, (mcOf f).typ, (mcOf f).name⟩ : Record)),
          ran ++ pre ++ [b], some e) := by
  induction pre with
  | nil =>
    intro b post e h ran _ hb _ _ _ hfb
    simp [applyDirGo, applyFile, hb, hfb]
  | cons f pre ih =>
    intro b post e h ran hpre hb hnd hbp hok hfb
    have hf : alreadyApplied h f = false := hpre f (by simp)
    have hfa : env.fileApply f = Except.ok (mcOf f) := hok f (by simp)
    simp only [List.cons_append, applyDirGo, applyFile, hf, hfa, addRecord,
      Bool.false_eq_true, if_false, List.append_eq]
    have hpre' : ∀ g ∈ pre,
        alreadyApplied (h ++ [(⟨f, (mcOf f).typ, (mcOf f).name⟩ : Record)]) g = false := by
      intro g hg
      rw [alreadyApplied_append]
      have h1 : alreadyApplied h g = false := hpre g (by simp [hg])
      have h2 : g ≠ f := by
        intro hgf; exact (List.nodup_cons.mp hnd).1 (hgf ▸ hg)
      simp [h1, h2.symm]
    have hb' :
        alreadyApplied (h ++ [(⟨f, (mcOf f).typ, (mcOf f).name⟩ : Record)]) b = false := by
      rw [alreadyApplied_append]
      have h2 : b ≠ f := by intro hbf; exact hbp (by simp [hbf])
      simp [hb, h2.symm]
    rw [ih b post e _ (ran ++ [f]) hpre' hb' (List.nodup_cons.mp hnd).2
      (fun hbp2 => hbp (by simp [hbp2]))
      (fun g hg => hok g (by simp [hg])) hfb]
    simp

/-- C8: in directory mode, Apply processes the unapplied files in their
given order and stops at the first failure: with unapplied files
`pre ++ [b] ++ post` where every file of `pre` applies cleanly and `b`
fails, the files of `pre` are recorded in the history in order, `b`'s error
is returned (the history having been saved), and no file of `post` is ever
run; an empty unapplied list succeeds as a no-op. -/
theorem directory_apply_fail_fast (env : Env) (h : List Record)
    (hmode : env.filename = none) :
    (unappliedMigrations env h = [] → historyApply env h = ⟨h, [], 0, none⟩) ∧
    (∀ (pre : List String) (b : String) (post : List String) (e : String)
        (mcOf : String → MigConfig),
      env.migrationFiles.Nodup →
      unappliedMigrations env h = pre ++ b :: post →
      (∀ f ∈ pre, env.fileApply f = Except.ok (mcOf f)) →
      env.fileApply b = Except.error e →
      env.saveResult = none →
      (historyApply env h).hist =
          h ++ pre.map (fun f => (⟨f, (mcOf f).typ, (mcOf f).name⟩ : Record)) ∧
      (historyApply env h).ran = pre ++ [b] ∧
      (historyApply env h).err = some e) := by
  constructor
  · intro hemp
    have hcore : historyApplyCore env h = (h, [], none) := by
      simp [historyApplyCore, hmode, hemp, applyDirGo]
    simp [historyApply, hcore]
  · intro pre b post e mcOf hnd hunap hok hfb hsave
    have hfresh : ∀ f ∈ pre ++ b :: post, alreadyApplied h f = false := by
      intro f hf
      have hmem : f ∈ unappliedMigrations env h := by rw [hunap]; exact hf
      have := (List.mem_filter.mp hmem).2
      simpa using this
    have hnodup : (pre ++ b :: post).Nodup := by
      rw [← hunap]; exact hnd.filter _
    have hnds := List.nodup_append.mp hnodup
    have hbp : b ∉ pre := by
      intro hbpre
      exact hnds.2.2 hbpre (by simp)
    have hcore : historyApplyCore env h =
        (h ++ pre.map (fun f => (⟨f, (mcOf f).typ, (mcOf f).name⟩ : Record)),
          pre ++ [b], some e) := by
      have := applyDirGo_fail_fast env mcOf pre b post e h []
        (fun f hf => hfresh f (by simp [hf])) (hfresh b (by simp))
        hnds.1 hbp hok hfb
      simpa [historyApplyCore, hmode, hunap] using this
    by_cases hp : pre = []
    · subst hp
      simp [historyApply, hcore]
    · have hlen :
          ¬ (h ++ pre.map (fun f => (⟨f, (mcOf f).typ, (mcOf f).name⟩ : Record))).length
            = h.length := by
        simp [List.length_append]
        intro hlp
        exact hp hlp
      refine ⟨?_, ?_, ?_⟩ <;> simp [historyApply, hcore, hlen, hsave, hp]

/-- Witness for C8: unapplied files `["a", "b", "c"]` where `"b"` fails:
`"a"` is recorded, `"c"` is never run, and the run reports `"b"`'s
error. -/
theorem directory_apply_fail_fast_witness :
    (historyApply
        ⟨none, ["a", "b", "c"],
          fun f => if f = "b" then Except.error "bfail" else Except.ok ⟨"mv", "m" ++ f⟩,
          fun _ => none, none⟩ []).hist = [⟨"a", "mv", "ma"⟩] ∧
    (historyApply
        ⟨none, ["a", "b", "c"],
          fun f => if f = "b" then Except.error "bfail" else Except.ok ⟨"mv", "m" ++ f⟩,
          fun _ => none, none⟩ []).ran = ["a", "b"] ∧
    (historyApply
        ⟨none, ["a", "b", "c"],
          fun f => if f = "b" then Except.error "bfail" else Except.ok ⟨"mv", "m" ++ f⟩,
          fun _ => none, none⟩ []).err = some "bfail" := by
  have h := (directory_apply_fail_fast
      ⟨none, ["a", "b", "c"],
        fun f => if f = "b" then Except.error "bfail" else Except.ok ⟨"mv", "m" ++ f⟩,
        fun _ => none, none⟩ [] rfl).2
    ["a"] "b" ["c"] "bfail"
    (fun f => ⟨"mv", "m" ++ f⟩) (by decide) (by decide)
    (by decide) (by decide) rfl
  simpa using h

end Tfmigrate
